import Mathlib

/-!
Verification of the directory-indexing, navigation, query and edit-proposal
engine of `code_assistant.py` (class `CodebaseAssistant`).

Paths are modelled as lists of components (`List String`): an absolute path
is its component list from the filesystem root, a catalog-relative path is
its component list from the catalog root.  File contents are `List Char`.
The filesystem seen by `scan_codebase` is a finite tree `FS`; filesystem
effects that the navigation / approval code performs through the OS
(`os.path.isdir`, `os.listdir`, `open(..., "w")`, `os.makedirs`,
`shutil.copytree`) are oracles recorded in small environment structures,
so that every run of the Python code corresponds to one choice of oracle.
-/

/-! ### Small dictionary helpers (Python `dict` on association lists) -/

/-- `d[k]` lookup. -/
def lookupKey {α : Type} (d : List (String × α)) (k : String) : Option α :=
  (d.find? (fun e => e.1 = k)).map (·.2)

/-- `k in d`. -/
def containsKey {α : Type} (d : List (String × α)) (k : String) : Bool :=
  d.any (fun e => e.1 = k)

/-- `d[k] = v`: replaces the value at an existing key in place, else appends. -/
def dictInsert {α : Type} (d : List (String × α)) (k : String) (v : α) : List (String × α) :=
  if containsKey d k then d.map (fun e => if e.1 = k then (k, v) else e)
  else d ++ [(k, v)]

/-- `del d[k]`. -/
def eraseKey {α : Type} (d : List (String × α)) (k : String) : List (String × α) :=
  d.filter (fun e => ¬ e.1 = k)

/-! ### Characters, lines, `str.splitlines`, `str.lower` -/

/-- The characters Python `str.splitlines` treats as line boundaries
(`\r\n` is handled separately as a single boundary). -/
def isPyBreak (c : Char) : Bool :=
  c = '\n' || c = '\r' || c = '\x0b' || c = '\x0c' ||
  c = '\x1c' || c = '\x1d' || c = '\x1e' || c = '\x85' ||
  c = '\u2028' || c = '\u2029'

/-- Worker for `pySplitlines`; `acc` is the current (reversed) line.  On a
break character the current line is emitted; a `\r` immediately followed by
`\n` consumes both characters as a single boundary. -/
def splitlinesGo : List Char → List Char → List (List Char)
  | [], acc => if acc = [] then [] else [acc.reverse]
  | c :: rest, acc =>
      if isPyBreak c then
        match rest with
        | [] => [acc.reverse]
        | d :: rest2 =>
            if c = '\r' ∧ d = '\n' then acc.reverse :: splitlinesGo rest2 []
            else acc.reverse :: splitlinesGo (d :: rest2) []
      else splitlinesGo rest (c :: acc)

/-- Python `content.splitlines()`. -/
def pySplitlines (cs : List Char) : List (List Char) := splitlinesGo cs []

/-- Number of line breaks in a text, counting `\r\n` as a single break
(the notion of "line break" used by the specification). -/
def countLineBreaks : List Char → Nat
  | [] => 0
  | c :: rest =>
      if isPyBreak c then
        match rest with
        | [] => 1
        | d :: rest2 =>
            if c = '\r' ∧ d = '\n' then 1 + countLineBreaks rest2
            else 1 + countLineBreaks (d :: rest2)
      else countLineBreaks rest

/-- Whether the final character of a text is a line-break character. -/
def endsInBreak : List Char → Bool
  | [] => false
  | [c] => isPyBreak c
  | _ :: c :: rest => endsInBreak (c :: rest)

/-- Python `s.lower()` on the underlying characters. -/
def lowerChars (cs : List Char) : List Char := cs.map Char.toLower

/-- Python `s.lower()`. -/
def lowerStr (s : String) : String := (lowerChars s.data).asString

/-! ### `os.path.splitext` (extension part) -/

/-- Worker for `pySplitextExt`: `seen` records whether a non-dot character
has occurred before the current position; the extension is the suffix from
the last dot that has some non-dot character before it. -/
def splitextGo : List Char → Bool → List Char
  | [], _ => []
  | c :: rest, seen =>
      if c = '.' then
        let tailExt := splitextGo rest seen
        if tailExt ≠ [] then tailExt
        else if seen then c :: rest else []
      else splitextGo rest true

/-- The extension (including the leading dot) that `os.path.splitext`
returns for a basename, `[]` when there is none.  Leading dots of the
basename never start an extension (`.gitignore` has no extension). -/
def pySplitextExt (cs : List Char) : List Char := splitextGo cs false

/-! ### The scanned filesystem -/

/-- A finite filesystem tree: a file carries its `os.path.getsize` size and
its decoded text content; a directory carries its named entries. -/
inductive FS where
  | file (size : Nat) (content : List Char)
  | dir (entries : List (String × FS))

theorem FS.sizeOf_child_lt {n : String} {c : FS} {es : List (String × FS)}
    (h : (n, c) ∈ es) : sizeOf c < 1 + sizeOf es := by
  have h1 : sizeOf (n, c) < sizeOf es := List.sizeOf_lt_of_mem h
  simp only [Prod.mk.sizeOf_spec] at h1
  omega

/-- Induction over `FS` giving the hypothesis for every child of a directory. -/
theorem FS.inductionOn {P : FS → Prop} (t : FS)
    (hfile : ∀ sz ct, P (FS.file sz ct))
    (hdir : ∀ es, (∀ n c, (n, c) ∈ es → P c) → P (FS.dir es)) : P t :=
  match t with
  | .file sz ct => hfile sz ct
  | .dir es =>
      hdir es (fun n c h =>
        have : sizeOf c < 1 + sizeOf es := FS.sizeOf_child_lt h
        FS.inductionOn c hfile hdir)
termination_by sizeOf t
decreasing_by simp only [FS.dir.sizeOf_spec]; exact this

/-- `True` on directory nodes. -/
def FS.isDirNode : FS → Bool
  | .file _ _ => false
  | .dir _ => true

/-- What `scan_codebase` records per discovered file before deriving the
`all_files` / `file_contents` entries. -/
structure RawFile where
  path : List String
  size : Nat
  content : List Char
deriving DecidableEq

/-- The `max_depth` check of `scan_codebase`: directories whose separator
count relative to the root exceeds `max_depth` are skipped wholesale.
(The source computes that count as
`root.replace(self.codebase_root, '').count(os.sep)`; in the component
model this is the number of relative components, which is what the
string expression yields whenever the root string does not reoccur as a
substring further down the walked path.) -/
def depthPrune (maxD : Option Nat) (d : Nat) : Bool :=
  match maxD with
  | none => false
  | some m => d > m

/-- Prefix one directory name onto a raw file's relative path. -/
def prefixRaw (n : String) (r : RawFile) : RawFile :=
  { r with path := n :: r.path }

mutual
/-- The file enumeration of `scan_codebase`'s `os.walk` loop: at each
directory (of depth `d` relative to the root) the ignored directory names
are pruned, the depth limit is applied, the directory's own files are
recorded, and the surviving subdirectories are traversed. -/
def walkScan (ig : List String) (maxD : Option Nat) : FS → Nat → List RawFile
  | .file _ _, _ => []
  | .dir es, d =>
      if depthPrune maxD d then []
      else
        (es.filterMap (fun e =>
          match e with
          | (n, .file sz ct) => some ⟨[n], sz, ct⟩
          | (_, .dir _) => none))
        ++ walkSubdirs ig maxD es (d + 1)

/-- Traversal of the pruned `dirs` list: a child is descended into exactly
when it is a directory whose name is not in the ignore list; `d` is the
depth of the children. -/
def walkSubdirs (ig : List String) (maxD : Option Nat) :
    List (String × FS) → Nat → List RawFile
  | [], _ => []
  | (n, c) :: rest, d =>
      (if c.isDirNode && !(ig.contains n) then (walkScan ig maxD c d).map (prefixRaw n)
       else [])
      ++ walkSubdirs ig maxD rest d
end

/-- Membership of a file (path, size, content all matching) in the tree:
the specification-side notion of "file under the root". -/
inductive FS.HasFile : FS → List String → Nat → List Char → Prop
  | here {es : List (String × FS)} {n sz ct} :
      (n, FS.file sz ct) ∈ es → FS.HasFile (.dir es) [n] sz ct
  | there {es : List (String × FS)} {n c rest sz ct} :
      (n, c) ∈ es → FS.HasFile c rest sz ct → FS.HasFile (.dir es) (n :: rest) sz ct

/-! ### FileRecord / ContentRecord derivation (`scan_codebase` loop body) -/

/-- The recognized text-extension list of `scan_codebase` (compared against
`os.path.splitext(file)[1].lower()`, i.e. including the leading dot). -/
def textExtList : List String :=
  [".py", ".js", ".ts", ".java", ".cpp", ".h", ".cs", ".go", ".rs",
   ".php", ".rb", ".swift", ".kt", ".c", ".jsx", ".tsx", ".html",
   ".css", ".scss", ".json", ".yml", ".yaml", ".md", ".txt",
   ".xml", ".sql", ".sh", ".bat", ".ps1", ".r", ".dart", ".lua",
   ".m", ".mm", ".pl", ".pm", ".conf", ".config", ".ini", ".toml",
   ".vue", ".svelte", ".elm", ".clj", ".scala", ".groovy", ".ex", ".exs",
   ".erl", ".hs", ".jl", ".tf", ".gitignore", ".env", ".gradle"]

/-- Basename of a relative path (`os.path.basename`); walk results always
have a non-empty path, so the default is never used there. -/
def basenameOf (p : List String) : String := p.getLastD ""

/-- `os.path.splitext(file)[1].lower()` of a raw file's basename. -/
def fileExtLower (f : RawFile) : List Char :=
  lowerChars (pySplitextExt (basenameOf f.path).data)

/-- One `all_files` entry of `scan_codebase` (the FileRecord). -/
structure FileRec where
  extension : String
  size : Nat
deriving DecidableEq

/-- `all_files[relative_path] = {...}` from the scan loop:
`extension` is the lowered splitext extension without its dot, `''` if none. -/
def mkFileRec (f : RawFile) : FileRec :=
  let fe := fileExtLower f
  ⟨if fe = [] then "" else (fe.drop 1).asString, f.size⟩

/-- One `file_contents` entry of `scan_codebase` (the ContentRecord). -/
structure CtxRec where
  content : List Char
  language : String
  size : Nat
  lines : Nat
  depth : Nat
deriving DecidableEq

/-- `file_contents[relative_path] = {...}` from the scan loop: created only
when the dotted lowered extension is in `textExtList` and the file size is
within the 10 MiB cap. -/
def mkContentRec (f : RawFile) : Option CtxRec :=
  let fe := fileExtLower f
  if fe.asString ∈ textExtList then
    if f.size > 10 * 1024 * 1024 then none
    else some ⟨f.content, (fe.drop 1).asString, f.content.length,
               (pySplitlines f.content).length, f.path.length - 1⟩
  else none

/-- The `all_files_info` map produced by a scan, as an ordered association
list keyed by relative path. -/
def scanFileRecs (ig : List String) (maxD : Option Nat) (t : FS) :
    List (List String × FileRec) :=
  (walkScan ig maxD t 0).map (fun f => (f.path, mkFileRec f))

/-- The `codebase_context` map produced by a scan. -/
def scanContentRecs (ig : List String) (maxD : Option Nat) (t : FS) :
    List (List String × CtxRec) :=
  (walkScan ig maxD t 0).filterMap
    (fun f => (mkContentRec f).map (fun cr => (f.path, cr)))

/-! ### Navigation (`list_directory` / `change_directory`) -/

/-- The syntactic categories `list_directory` distinguishes for a non-`None`
argument, in the order the source tests them: a string starting with `".."`
(the remainder is ignored by the code), the literal `"."`, an absolute path
(component list from the filesystem root), or a relative path (its
segments, possibly containing `"."`/`".."`, resolved by `os.path.normpath`
after joining). -/
inductive NavArg where
  | parentish
  | dot
  | abs (p : List String)
  | rel (segs : List String)
deriving DecidableEq

/-- `os.path.normpath(os.path.join(base, segs))` for an absolute `base`:
`"."` segments vanish, `".."` segments drop the last component (never going
above the filesystem root). -/
def normJoin (base : List String) (segs : List String) : List String :=
  segs.foldl
    (fun acc s => if s = "." then acc else if s = ".." then acc.dropLast else acc ++ [s])
    base

/-- The target-directory resolution of `list_directory` (source lines
413-434).  `root` is `codebase_root`, `cur` is `current_directory`, both
absolute.  For a `".."`-argument the source compares
`os.path.dirname(cur) == cur`, which holds only at the *filesystem* root;
an absolute argument must have the catalog root as a prefix (the source's
character-level `startswith` test is modelled as component-prefix; the
character-level test accepts even more paths, e.g. sibling directories
sharing a name prefix). -/
def resolveDir (root cur : List String) (arg : Option NavArg) :
    Except String (List String) :=
  match arg with
  | none => .ok cur
  | some .parentish =>
      let parent := cur.dropLast
      if parent = cur then .ok root else .ok parent
  | some .dot => .ok cur
  | some (.abs p) =>
      if root.isPrefixOf p then .ok p
      else .error "Directory is outside the scanned codebase."
  | some (.rel segs) => .ok (normJoin cur segs)

/-- Filesystem oracles used by `list_directory`: whether a path is an
existing directory (`os.path.isdir`) and whether building the listing for
it succeeds (`os.listdir` and the per-entry stat calls). -/
structure NavEnv where
  isDir : List String → Bool
  listOk : List String → Bool

/-- `list_directory`: on successful resolution to an existing directory the
current directory is updated (source line 443) *before* the listing is
built, then the listing (represented by its target path) is returned; a
listing failure is caught and reported after the cursor has already moved.
Returns the new `current_directory` and the result. -/
def list_directory (env : NavEnv) (root cur : List String) (arg : Option NavArg) :
    List String × Except String (List String) :=
  match resolveDir root cur arg with
  | .error e => (cur, .error e)
  | .ok target =>
      if env.isDir target then
        if env.listOk target then (target, .ok target)
        else (target, .error "Error listing directory")
      else (cur, .error "not a valid directory")

/-- `change_directory(directory)` is exactly `list_directory(directory)`. -/
def change_directory (env : NavEnv) (root cur : List String) (arg : NavArg) :
    List String × Except String (List String) :=
  list_directory env root cur (some arg)

/-! ### Query engine -/

/-- Relative-path string of a component list (`os.sep`-joined), as the
character list that Python string operations see. -/
def pathChars : List String → List Char
  | [] => []
  | [n] => n.data
  | n :: m :: rest => n.data ++ '/' :: pathChars (m :: rest)

/-- Python `s.startswith('.')`. -/
def startsWithDot (s : String) : Bool :=
  match s.data with
  | c :: _ => c = '.'
  | [] => false

/-- `extension[1:] if extension.startswith('.') else extension` from
`find_all_files_by_extension`. -/
def stripOneDot (ext : String) : String :=
  if startsWithDot ext then (ext.data.drop 1).asString else ext

/-- `find_all_files_by_extension(extension)` over a scanned `all_files_info`
map: after normalization, keeps the records whose stored extension equals
the argument case-insensitively; returns their paths. -/
def find_all_files_by_extension (files : List (List String × FileRec))
    (extension : String) : List (List String) :=
  let ext := stripOneDot extension
  (files.filter (fun pf => lowerStr pf.2.extension = lowerStr ext)).map (·.1)

/-- The extension filter of `find_files`: a file passes unless a non-empty
`extension` argument is given and the lowered path does not end in
`"." + extension.lower()`.  (The `pattern`/`path_pattern`/`in_current_dir`
filters are `None`/`False` in every claim considered here and are then
no-ops in the source, so they are not modelled.) -/
def findFilesPass (extension : Option String) (pf : List String × FileRec) : Bool :=
  match extension with
  | none => true
  | some e =>
      if e = "" then true
      else ('.' :: lowerChars e.data).isSuffixOf (lowerChars (pathChars pf.1))

/-- The result-collection loop of `find_files`: append each matching file,
and `break` as soon as the result count reaches `limit` (the length test
runs after every file, matching or not). -/
def findFilesGo (ok : (List String × FileRec) → Bool) (limit : Nat) :
    List (List String × FileRec) → Nat → List (List String)
  | [], _ => []
  | f :: rest, n =>
      if ok f then
        if n + 1 ≥ limit then [f.1]
        else f.1 :: findFilesGo ok limit rest (n + 1)
      else
        if n ≥ limit then []
        else findFilesGo ok limit rest n

/-- `find_files(extension=..., limit=...)` with the other filters at their
claim-relevant defaults; returns the matched paths in catalog order. -/
def find_files (files : List (List String × FileRec)) (extension : Option String)
    (limit : Nat) : List (List String) :=
  findFilesGo (findFilesPass extension) limit files 0

/-- One search hit of `search_in_codebase`: `line_number` is the 1-based
enumeration index, `startOff`/`endOff` are the `match.start()`/`match.end()`
character offsets in the line, and the context entries are
`(j, lines[j])` pairs whose first component is the 0-based list index `j`
(the printer adds 1 when displaying them). -/
structure SearchMatch where
  line_number : Nat
  startOff : Nat
  endOff : Nat
  context_before : List (Nat × List Char)
  context_after : List (Nat × List Char)
deriving DecidableEq

/-- Python `range(a, b)` for naturals. -/
def pyRange (a b : Nat) : List Nat := (List.range (b - a)).map (a + ·)

/-- Non-overlapping case-insensitive occurrences of the (regex-escaped)
query in one line, as `(start, end)` offset pairs — the behaviour of
`re.compile(re.escape(query), re.IGNORECASE).finditer(line)`. -/
def occGo (ql : List Char) : List Char → Nat → Nat → List (Nat × Nat)
  | [], pos, _ => if ql = [] then [(pos, pos)] else []
  | c :: rest, pos, skip =>
      match skip with
      | k + 1 => occGo ql rest (pos + 1) k
      | 0 =>
          if ql.isPrefixOf (lowerChars (c :: rest)) then
            (pos, pos + ql.length) :: occGo ql rest (pos + 1) (ql.length - 1)
          else occGo ql rest (pos + 1) 0

/-- All case-insensitive matches of the query in one line. -/
def findOcc (q line : List Char) : List (Nat × Nat) :=
  occGo (lowerChars q) line 0 0

/-- Build the match record for a hit at 1-based line `i`, offsets `se`,
with the context slices of `search_in_codebase` (source lines 802-820):
`start_line = max(0, i - context_lines - 1)`, context-before indices
`range(start_line, i-1)`, context-after indices `range(i, min(len, i+ctx))`. -/
def mkSearchMatch (lines : List (List Char)) (ctx : Nat) (i : Nat)
    (se : Nat × Nat) : SearchMatch :=
  { line_number := i
    startOff := se.1
    endOff := se.2
    context_before :=
      if ctx > 0 then (pyRange (i - ctx - 1) (i - 1)).map (fun j => (j, lines.getD j []))
      else []
    context_after :=
      if ctx > 0 then
        (pyRange i (min lines.length (i + ctx))).map (fun j => (j, lines.getD j []))
      else [] }

/-- The `for i, line in enumerate(lines, 1)` loop of `search_in_codebase`
over the remaining lines, `i` being the 1-based number of the first one. -/
def searchLinesGo (q : List Char) (ctx : Nat) (lines : List (List Char)) :
    Nat → List (List Char) → List SearchMatch
  | _, [] => []
  | i, line :: rest =>
      ((findOcc q line).map (mkSearchMatch lines ctx i))
        ++ searchLinesGo q ctx lines (i + 1) rest

/-- All matches `search_in_codebase` finds in one file's content. -/
def searchMatches (q : List Char) (ctx : Nat) (content : List Char) :
    List SearchMatch :=
  let lines := pySplitlines content
  searchLinesGo q ctx lines 1 lines

/-- Per-file search result: the total `match_count` and the reported
matches, capped at the first 10 (`matches[:10]`). -/
def fileSearch (q : List Char) (ctx : Nat) (content : List Char) :
    Nat × List SearchMatch :=
  ((searchMatches q ctx content).length, (searchMatches q ctx content).take 10)

/-! ### Edit proposals (`suggest` / `approve_changes` / `_backup_codebase`) -/

/-- One `files_to_modify` entry of a proposal. -/
structure ModEntry where
  path : List String
  newContent : List Char
deriving DecidableEq

/-- One `files_to_create` entry of a proposal. -/
structure CreateEntry where
  path : List String
  content : List Char
deriving DecidableEq

/-- A pending change, as stored in `pending_changes`. -/
structure Proposal where
  description : String
  filesToModify : List ModEntry
  filesToCreate : List CreateEntry
  timestamp : Nat
deriving DecidableEq

/-- The session state touched by the proposal workflow: the pending-change
store, the in-memory maps, and the disk contents under the catalog root. -/
structure Session where
  pending : List (String × Proposal)
  context : List (List String × CtxRec)
  allFiles : List (List String × FileRec)
  disk : List (List String × List Char)
deriving DecidableEq

/-- Environment oracles for one `approve_changes` run: whether the
`shutil.copytree` backup succeeds (and the backup directory name), whether
`open(path, "w")`+write succeeds for a target path, and whether
`os.makedirs` succeeds for a parent directory. -/
structure ApplyEnv where
  backupOk : Bool
  backupDir : String
  writeOk : List String → Bool
  mkdirsOk : List String → Bool

/-- Relative-path string used inside the per-file error messages. -/
def pathStr (p : List String) : String := (pathChars p).asString

/-- Update a `codebase_context` record after a modification (source lines
1130-1132: `content`, `size` and `lines` are rewritten in place). -/
def updOneCtx (r : CtxRec) (ct : List Char) : CtxRec :=
  { r with content := ct, size := ct.length, lines := (pySplitlines ct).length }

/-- Apply `updOneCtx` at the given key, leaving other entries alone. -/
def updCtx (d : List (List String × CtxRec)) (p : List String) (ct : List Char) :
    List (List String × CtxRec) :=
  d.map (fun e => if e.1 = p then (p, updOneCtx e.2 ct) else e)

/-- `p in d` for path-keyed maps. -/
def containsPath {α : Type} (d : List (List String × α)) (p : List String) : Bool :=
  d.any (fun e => e.1 = p)

/-- `d[p] = v` for path-keyed maps (replace-or-append, Python dict). -/
def pathInsert {α : Type} (d : List (List String × α)) (p : List String) (v : α) :
    List (List String × α) :=
  if containsPath d p then d.map (fun e => if e.1 = p then (p, v) else e)
  else d ++ [(p, v)]

/-- The `files_to_modify` loop of `approve_changes`: on a successful write
the disk and the matching context record are updated and the path is
recorded in `modified_files`; a write failure — or the `KeyError` from a
path missing from `codebase_context` — is caught per file and appended to
`errors`, and the loop continues. -/
def applyMods (env : ApplyEnv) :
    List ModEntry → Session → Session × List (List String) × List String
  | [], st => (st, [], [])
  | m :: rest, st =>
      if env.writeOk m.path then
        let st1 := { st with disk := pathInsert st.disk m.path m.newContent }
        if containsPath st1.context m.path then
          let st2 := { st1 with context := updCtx st1.context m.path m.newContent }
          let r := applyMods env rest st2
          (r.1, m.path :: r.2.1, r.2.2)
        else
          let r := applyMods env rest st1
          (r.1, r.2.1, ("Error modifying " ++ pathStr m.path) :: r.2.2)
      else
        let r := applyMods env rest st
        (r.1, r.2.1, ("Error modifying " ++ pathStr m.path) :: r.2.2)

/-- The context record inserted for a newly created file (source lines
1153-1161); note the language is the splitext extension without its dot and
without lowering. -/
def mkCreatedCtx (p : List String) (ct : List Char) : CtxRec :=
  { content := ct
    language := ((pySplitextExt (basenameOf p).data).drop 1).asString
    size := ct.length
    lines := (pySplitlines ct).length
    depth := p.length - 1 }

/-- The `all_files_info` record inserted for a newly created file. -/
def mkCreatedFileRec (p : List String) (ct : List Char) : FileRec :=
  { extension := ((pySplitextExt (basenameOf p).data).drop 1).asString
    size := ct.length }

/-- The `files_to_create` loop of `approve_changes`.  The
`os.makedirs(..., exist_ok=True)` call sits *outside* the per-file
`try`, so its failure raises out of the loop (fourth component
`some msg`): remaining entries are not processed and the state mutated so
far is kept.  A failing write inside the `try` is collected per file. -/
def applyCreates (env : ApplyEnv) :
    List CreateEntry → Session →
      Session × List (List String) × List String × Option String
  | [], st => (st, [], [], none)
  | c :: rest, st =>
      if env.mkdirsOk c.path.dropLast then
        if env.writeOk c.path then
          let st1 := { st with
            disk := pathInsert st.disk c.path c.content,
            context := pathInsert st.context c.path (mkCreatedCtx c.path c.content),
            allFiles := pathInsert st.allFiles c.path (mkCreatedFileRec c.path c.content) }
          let r := applyCreates env rest st1
          (r.1, c.path :: r.2.1, r.2.2.1, r.2.2.2)
        else
          let r := applyCreates env rest st
          (r.1, r.2.1, ("Error creating " ++ pathStr c.path) :: r.2.2.1, r.2.2.2)
      else
        (st, [], [], some ("Error applying changes for " ++ pathStr c.path))

/-- The `results` dictionary of a completed (non-aborted) approval. -/
structure ApplyOutcome where
  modified_files : List (List String)
  created_files : List (List String)
  errors : List String
  success : Bool
  backup_dir : Option String
deriving DecidableEq

/-- Result of `approve_changes`. -/
inductive ApproveResult where
  | notFound (msg : String)
  | aborted (msg : String)
  | done (o : ApplyOutcome)
deriving DecidableEq

/-- `approve_changes(change_id)`: absent id fails immediately; then the
backup runs (its failure is re-raised into the outer `except`, aborting
with nothing applied); then the modify and create loops run; a `makedirs`
failure aborts mid-way keeping prior mutations; otherwise the proposal is
deleted exactly when the collected error list is empty, in which case the
result reports success and the backup location. -/
def approve_changes (env : ApplyEnv) (st : Session) (id : String) :
    Session × ApproveResult :=
  match lookupKey st.pending id with
  | none => (st, .notFound ("Change ID " ++ id ++ " not found in pending changes."))
  | some ch =>
      if env.backupOk then
        let rm := applyMods env ch.filesToModify st
        let rc := applyCreates env ch.filesToCreate rm.1
        match rc.2.2.2 with
        | some msg => (rc.1, .aborted msg)
        | none =>
            let errs := rm.2.2 ++ rc.2.2.1
            if errs = [] then
              ({ rc.1 with pending := eraseKey rc.1.pending id },
               .done ⟨rm.2.1, rc.2.1, [], true, some env.backupDir⟩)
            else
              (rc.1, .done ⟨rm.2.1, rc.2.1, errs, false, none⟩)
      else (st, .aborted "Error creating backup")

/-- The id derivation and store of `suggest_feature_implementation` (source
lines 1035-1041): `change_id = f"change_{int(time.time())}"`, then a plain
dict assignment into `pending_changes`. -/
def storeProposal (pending : List (String × Proposal)) (now : Nat) (p : Proposal) :
    String × List (String × Proposal) :=
  let id := "change_" ++ toString now
  (id, dictInsert pending id p)

/-! ### Auxiliary lemmas -/

theorem splitextGo_of_no_dot {cs : List Char} (h : '.' ∉ cs) :
    ∀ b, splitextGo cs b = [] := by
  induction cs with
  | nil => intro b; rfl
  | cons c rest ih =>
      intro b
      have hc : ¬ c = '.' := fun hc => h (hc ▸ List.mem_cons_self c rest)
      have hrest : '.' ∉ rest := fun hr => h (List.mem_cons_of_mem c hr)
      simp only [splitextGo, if_neg hc]
      exact ih hrest true

/-! ### Claim theorems -/

/-- Claim C10: a scanned file whose basename begins with a dot and contains
no further dot gets the empty extension and no ContentRecord, because
`os.path.splitext` never treats the leading dot of a basename as an
extension separator. -/
theorem C10_dotfile_no_extension_no_content
    (ig : List String) (maxD : Option Nat) (t : FS) (f : RawFile)
    (_hmem : f ∈ walkScan ig maxD t 0) (cs : List Char)
    (hname : (basenameOf f.path).data = '.' :: cs) (hnd : '.' ∉ cs) :
    (mkFileRec f).extension = "" ∧ mkContentRec f = none := by
  have hext : pySplitextExt (basenameOf f.path).data = [] := by
    rw [hname]
    show splitextGo ('.' :: cs) false = []
    simp only [splitextGo, if_pos rfl, splitextGo_of_no_dot hnd false]
    simp
  have hfe : fileExtLower f = [] := by
    simp [fileExtLower, hext, lowerChars]
  constructor
  · simp [mkFileRec, hfe]
  · simp only [mkContentRec, hfe]
    have : ([] : List Char).asString ∉ textExtList := by decide
    simp [this]

/-- Witness for C10 on a concrete catalog containing `.gitignore`. -/
theorem C10_dotfile_no_extension_no_content_witness :
    (mkFileRec ⟨[".gitignore"], 3, "a\n".data⟩).extension = ""
    ∧ mkContentRec ⟨[".gitignore"], 3, "a\n".data⟩ = none :=
  C10_dotfile_no_extension_no_content [] none
    (FS.dir [(".gitignore", FS.file 3 "a\n".data)])
    ⟨[".gitignore"], 3, "a\n".data⟩ (by decide) "gitignore".data
    (by decide) (by decide)

/-- Claim C1 (code bug): from the catalog root `/home/proj`, `cd ..` does
not stay put: `os.path.dirname` of the root differs from the root (the
"already at root" test compares against the *filesystem* root), so the
cursor moves to `/home`, which is not the catalog root nor a descendant of
it — the containment invariant and the no-op-at-root clause both fail. -/
theorem C1_cd_parent_escapes_root :
    change_directory ⟨fun p => p = ["home"], fun _ => true⟩
        ["home", "proj"] ["home", "proj"] .parentish
      = (["home"], .ok ["home"])
    ∧ ¬ ["home", "proj"] <+: ["home"] := by
  constructor
  · rfl
  · decide

/-- Claim C4: when the backup copy fails, the whole approval aborts with a
surfaced error, no modification or creation reaches disk or the in-memory
catalog, and the proposal stays in the store (the session is unchanged). -/
theorem C4_backup_failure_aborts (env : ApplyEnv) (st : Session) (id : String)
    (ch : Proposal) (hid : lookupKey st.pending id = some ch)
    (hbk : env.backupOk = false) :
    approve_changes env st id = (st, .aborted "Error creating backup") := by
  simp [approve_changes, hid, hbk]

/-- Witness for C4 on a concrete store and failing backup oracle. -/
theorem C4_backup_failure_aborts_witness :
    approve_changes ⟨false, "bk", fun _ => true, fun _ => true⟩
        ⟨[("change_7", ⟨"add x", [⟨["m.py"], "new".data⟩], [], 7⟩)],
         [(["m.py"], ⟨"old".data, "py", 3, 1, 0⟩)], [], []⟩ "change_7"
      = (⟨[("change_7", ⟨"add x", [⟨["m.py"], "new".data⟩], [], 7⟩)],
          [(["m.py"], ⟨"old".data, "py", 3, 1, 0⟩)], [], []⟩,
         .aborted "Error creating backup") :=
  C4_backup_failure_aborts _ _ "change_7" ⟨"add x", [⟨["m.py"], "new".data⟩], [], 7⟩
    (by decide) rfl

/-- Counterexample to claim C5 as stated: the argument `a/../..` does not
resolve to an existing directory *under the catalog root* (it resolves to
the filesystem root, outside the catalog), yet `list_directory` reports no
error and mutates the cursor. -/
theorem C5_relative_escape_cex :
    list_directory ⟨fun p => p = ["r"], fun _ => true⟩ ["r", "base"] ["r", "base"]
        (some (.rel ["a", "..", ".."]))
      = (["r"], .ok ["r"])
    ∧ ¬ ["r", "base"] <+: ["r"] := by
  constructor
  · simp [list_directory, resolveDir, normJoin]
  · decide

/-- Claim C5 (amended): a `list`/`changeDirectory` call whose argument
fails to resolve (absolute path outside the root) or resolves to a
non-existing directory returns an error and leaves the cursor unchanged;
and whenever the cursor does change, the argument resolved to an existing
directory and the cursor is exactly that directory. -/
theorem C5_failed_navigation_preserves_cursor (env : NavEnv)
    (root cur : List String) (arg : Option NavArg) :
    ((match resolveDir root cur arg with
      | .error _ => True
      | .ok t => env.isDir t = false) →
      (list_directory env root cur arg).1 = cur
      ∧ ∃ e, (list_directory env root cur arg).2 = .error e)
    ∧ ((list_directory env root cur arg).1 ≠ cur →
      ∃ t, resolveDir root cur arg = .ok t ∧ env.isDir t = true
        ∧ (list_directory env root cur arg).1 = t) := by
  constructor
  · intro h
    match hres : resolveDir root cur arg with
    | .error e => simp [list_directory, hres]
    | .ok t =>
        rw [hres] at h
        simp [list_directory, hres, h]
  · intro h
    match hres : resolveDir root cur arg with
    | .error e => simp [list_directory, hres] at h
    | .ok t =>
        by_cases hd : env.isDir t
        · exact ⟨t, rfl, hd, by by_cases hl : env.listOk t <;> simp [list_directory, hres, hd, hl]⟩
        · simp [list_directory, hres, hd] at h

/-- Witness for C5: an absolute argument outside the root errors and the
cursor stays put. -/
theorem C5_failed_navigation_preserves_cursor_witness :
    (list_directory ⟨fun _ => false, fun _ => true⟩ ["r"] ["r"]
        (some (.abs ["x"]))).1 = ["r"]
    ∧ ∃ e, (list_directory ⟨fun _ => false, fun _ => true⟩ ["r"] ["r"]
        (some (.abs ["x"]))).2 = .error e :=
  (C5_failed_navigation_preserves_cursor ⟨fun _ => false, fun _ => true⟩
    ["r"] ["r"] (some (.abs ["x"]))).1 (by simp [resolveDir])

theorem splitlinesGo_length_aux : ∀ (n : Nat) (cs acc : List Char), cs.length ≤ n →
    (splitlinesGo cs acc).length =
      countLineBreaks cs +
        (if cs = [] then (if acc = [] then 0 else 1)
         else if endsInBreak cs then 0 else 1) := by
  intro n
  induction n with
  | zero =>
      intro cs acc h
      have hcs : cs = [] := by
        cases cs with
        | nil => rfl
        | cons c rest => simp at h
      subst hcs
      by_cases ha : acc = [] <;> simp [splitlinesGo, countLineBreaks, ha]
  | succ n ih =>
      intro cs acc h
      match cs with
      | [] => by_cases ha : acc = [] <;> simp [splitlinesGo, countLineBreaks, ha]
      | c :: rest =>
          simp only [List.length_cons] at h
          cases hb : isPyBreak c with
          | true =>
            match rest with
            | [] =>
                simp [splitlinesGo, countLineBreaks, endsInBreak, hb]
            | d :: rest2 =>
                by_cases hrn : c = '\r' ∧ d = '\n'
                · have h2 : rest2.length ≤ n := by simp at h; omega
                  have ihr := ih rest2 [] h2
                  simp only [splitlinesGo, countLineBreaks, hb, if_pos hrn, if_true,
                    List.length_cons, ihr]
                  match rest2 with
                  | [] =>
                      have hee : endsInBreak [c, d] = true := by
                        simp [endsInBreak, hrn.2, isPyBreak]
                      simp [hee]
                      omega
                  | e :: t =>
                      have he : endsInBreak (c :: d :: e :: t) = endsInBreak (e :: t) := by
                        simp [endsInBreak]
                      simp [he]
                      omega
                · have h2 : (d :: rest2).length ≤ n := by simp at h ⊢; omega
                  have ihr := ih (d :: rest2) [] h2
                  simp only [splitlinesGo, countLineBreaks, hb, if_neg hrn, if_true,
                    List.length_cons, ihr]
                  have he : endsInBreak (c :: d :: rest2) = endsInBreak (d :: rest2) := by
                    simp [endsInBreak]
                  simp [he]
                  omega
          | false =>
            match rest with
            | [] =>
                simp [splitlinesGo, countLineBreaks, endsInBreak, hb]
            | d :: t =>
                have h2 : (d :: t).length ≤ n := by simp at h ⊢; omega
                have ihr := ih (d :: t) (c :: acc) h2
                simp only [splitlinesGo, countLineBreaks, hb, Bool.false_eq_true, if_false, ihr]
                have he : endsInBreak (c :: d :: t) = endsInBreak (d :: t) := by
                  simp [endsInBreak]
                simp [he]

/-- For non-empty content not ending in a line break, `splitlines` yields
one more line than there are breaks. -/
theorem pySplitlines_length {cs : List Char} (h1 : cs ≠ [])
    (h2 : endsInBreak cs = false) :
    (pySplitlines cs).length = countLineBreaks cs + 1 := by
  have h3 := splitlinesGo_length_aux cs.length cs [] (le_refl _)
  simp [h1, h2] at h3
  simpa [pySplitlines] using h3

/-- Counterexample to claim C6 as stated: scanning a catalog whose only
file `a.txt` has the two-character content `"x\n"` yields a ContentRecord
with `lines = 1`, while (line breaks + 1) is `2` — a trailing line break
ends a line rather than starting a new one, so `splitlines` reports one
line fewer than the claim predicts. -/
theorem C6_trailing_newline_cex :
    (scanContentRecs [] none (FS.dir [("a.txt", FS.file 2 "x\n".data)])).map
        (fun e => e.2.lines) = [1]
    ∧ countLineBreaks "x\n".data + 1 = 2
    ∧ (1 : Nat) ≠ 2 := by
  refine ⟨by decide, by decide, by decide⟩

/-- Claim C6 (amended): for every ContentRecord produced by a scan, the
stored language tag equals the FileRecord extension of the same file, and
for non-empty content that does not end in a line-break character the
stored line count equals the number of line breaks plus one. -/
theorem C6_content_record_lines_language
    (ig : List String) (maxD : Option Nat) (t : FS) (f : RawFile) (cr : CtxRec)
    (_hmem : f ∈ walkScan ig maxD t 0) (hcr : mkContentRec f = some cr) :
    cr.language = (mkFileRec f).extension
    ∧ (cr.content ≠ [] → endsInBreak cr.content = false →
        cr.lines = countLineBreaks cr.content + 1) := by
  have hfe : fileExtLower f ≠ [] := by
    intro hfe
    rw [mkContentRec, hfe] at hcr
    have : ([] : List Char).asString ∉ textExtList := by decide
    simp [this] at hcr
  have hcr2 : cr = ⟨f.content, (fileExtLower f).tail.asString, f.content.length,
      (pySplitlines f.content).length, f.path.length - 1⟩ := by
    rw [mkContentRec] at hcr
    by_cases hin : (fileExtLower f).asString ∈ textExtList
    · by_cases hsz : f.size > 10 * 1024 * 1024
      · simp [hin, hsz] at hcr
      · simp [hin, hsz] at hcr
        exact hcr.symm
    · simp [hin] at hcr
  constructor
  · rw [hcr2, mkFileRec]
    simp [hfe, List.drop_one]
  · intro hne hend
    rw [hcr2] at hne hend ⊢
    simp only at hne hend ⊢
    exact pySplitlines_length hne hend

/-- Witness for C6 on a concrete Python file with two lines. -/
theorem C6_content_record_lines_language_witness :
    mkContentRec ⟨["a.py"], 8, "pass\nok".data⟩
      = some ⟨"pass\nok".data, "py", 7, 2, 0⟩
    ∧ (⟨"pass\nok".data, "py", 7, 2, 0⟩ : CtxRec).language
        = (mkFileRec ⟨["a.py"], 8, "pass\nok".data⟩).extension
    ∧ (⟨"pass\nok".data, "py", 7, 2, 0⟩ : CtxRec).lines
        = countLineBreaks "pass\nok".data + 1 := by
  have h := C6_content_record_lines_language [] none
    (FS.dir [("a.py", FS.file 8 "pass\nok".data)]) ⟨["a.py"], 8, "pass\nok".data⟩
    ⟨"pass\nok".data, "py", 7, 2, 0⟩ (by decide) (by decide)
  exact ⟨by decide, h.1, h.2 (by decide) (by decide)⟩

theorem pyRange_length (a b : Nat) : (pyRange a b).length = b - a := by
  simp [pyRange]

theorem mem_searchLinesGo {q : List Char} {ctx : Nat} {lines : List (List Char)} :
    ∀ (i : Nat) (l : List (List Char)) (m : SearchMatch),
      m ∈ searchLinesGo q ctx lines i l →
      i ≤ m.line_number ∧ m.line_number < i + l.length
      ∧ m.context_before.length ≤ ctx ∧ m.context_after.length ≤ ctx := by
  intro i l
  induction l generalizing i with
  | nil => intro m hm; simp [searchLinesGo] at hm
  | cons line rest ih =>
      intro m hm
      simp only [searchLinesGo, List.mem_append, List.mem_map] at hm
      rcases hm with ⟨se, _hse, rfl⟩ | hm
      · refine ⟨le_refl _, by simp [mkSearchMatch], ?_, ?_⟩
        · simp only [mkSearchMatch]
          split
          · simp [pyRange_length]; omega
          · simp
        · simp only [mkSearchMatch]
          split
          · simp [pyRange_length]; omega
          · simp
      · have h := ih (i + 1) m hm
        refine ⟨by omega, by simp only [List.length_cons]; omega, h.2.2.1, h.2.2.2⟩

/-- The ten-line file of the C8 scenario, with `TODO` only on line 5. -/
def scenarioContent : List Char :=
  "one\ntwo\nthree\nfour\nsee TODO here\nsix\nseven\neight\nnine\nten".data

/-- Counterexample to claim C8 as stated: in the scenario the single match
is reported with `context_before = [(3, "four")]` and
`context_after = [(5, "six")]` — the stored pair components are 0-based
list indices (the UI printer adds one), not the claimed `(4, ...)` and
`(6, ...)`. -/
theorem C8_context_zero_based_cex :
    ((fileSearch "TODO".data 1 scenarioContent).2.map
      (fun m => (m.context_before.map (·.1), m.context_after.map (·.1))))
      = [([3], [5])]
    ∧ ([3], [5]) ≠ (([4] : List Nat), ([6] : List Nat)) := by
  refine ⟨by decide, by decide⟩

/-- Claim C8 (amended): every reported match carries a 1-based line number
within the file, character offsets, and at most `contextLines` context
lines on each side; at most 10 matches are reported per file; and in the
scenario (`TODO` on line 5 of 10, one context line) the unique match is at
line 5, offsets 4-8, with context pairs `(3, "four")` and `(5, "six")`
whose first components are the 0-based indices of lines 4 and 6. -/
theorem C8_search_context_reporting :
    (∀ (q : List Char) (ctx : Nat) (content : List Char) (m : SearchMatch),
      m ∈ (fileSearch q ctx content).2 →
      1 ≤ m.line_number ∧ m.line_number ≤ (pySplitlines content).length
      ∧ m.context_before.length ≤ ctx ∧ m.context_after.length ≤ ctx)
    ∧ (∀ (q : List Char) (ctx : Nat) (content : List Char),
        (fileSearch q ctx content).2.length ≤ 10)
    ∧ fileSearch "TODO".data 1 scenarioContent
        = (1, [⟨5, 4, 8, [(3, "four".data)], [(5, "six".data)]⟩]) := by
  refine ⟨?_, ?_, by decide⟩
  · intro q ctx content m hm
    have hm2 : m ∈ searchMatches q ctx content := List.mem_of_mem_take hm
    have h := mem_searchLinesGo 1 (pySplitlines content) m hm2
    exact ⟨h.1, by omega, h.2.2.1, h.2.2.2⟩
  · intro q ctx content
    simp [fileSearch]

/-- Witness for C8: the scenario match satisfies the reported bounds. -/
theorem C8_search_context_reporting_witness :
    1 ≤ (⟨5, 4, 8, [(3, "four".data)], [(5, "six".data)]⟩ : SearchMatch).line_number
    ∧ (⟨5, 4, 8, [(3, "four".data)], [(5, "six".data)]⟩ : SearchMatch).line_number
        ≤ (pySplitlines scenarioContent).length
    ∧ (⟨5, 4, 8, [(3, "four".data)], [(5, "six".data)]⟩ : SearchMatch).context_before.length ≤ 1
    ∧ (⟨5, 4, 8, [(3, "four".data)], [(5, "six".data)]⟩ : SearchMatch).context_after.length ≤ 1 :=
  C8_search_context_reporting.1 "TODO".data 1 scenarioContent
    ⟨5, 4, 8, [(3, "four".data)], [(5, "six".data)]⟩ (by decide)

/-- Counterexample to claim C9 as stated: two proposals created in the same
clock second receive the same time-derived id, and the second store
overwrites the first — the store afterwards holds a single entry whose
payload is the second proposal. -/
theorem C9_same_second_overwrite_cex :
    (storeProposal [] 5 ⟨"first", [], [], 5⟩).1
      = (storeProposal (storeProposal [] 5 ⟨"first", [], [], 5⟩).2 5
          ⟨"second", [], [], 5⟩).1
    ∧ (storeProposal (storeProposal [] 5 ⟨"first", [], [], 5⟩).2 5
        ⟨"second", [], [], 5⟩).2
      = [("change_5", ⟨"second", [], [], 5⟩)]
    ∧ (⟨"first", [], [], 5⟩ : Proposal) ≠ ⟨"second", [], [], 5⟩ := by
  refine ⟨by decide, by decide, by decide⟩

/-- Claim C9 (amended): the id assigned to a new proposal is unique — and
storing it never overwrites or shadows an existing pending proposal —
provided its whole-second creation time differs from that of every
proposal already in the store (ids collide exactly when the clock second
repeats, as the spec's open question notes). -/
theorem C9_fresh_timestamp_no_overwrite
    (pending : List (String × Proposal)) (now : Nat) (p : Proposal)
    (hfresh : ∀ q ∈ pending, q.1 ≠ "change_" ++ toString now) :
    (storeProposal pending now p).2 = pending ++ [("change_" ++ toString now, p)]
    ∧ ∀ q ∈ pending,
        lookupKey (storeProposal pending now p).2 q.1 = lookupKey pending q.1 := by
  have hck : containsKey pending ("change_" ++ toString now) = false := by
    rw [containsKey]
    rw [List.any_eq_false]
    intro q hq
    simpa using hfresh q hq
  constructor
  · simp [storeProposal, dictInsert, hck]
  · intro q hq
    have hne : ¬ ("change_" ++ toString now = q.1) := fun h => hfresh q hq h.symm
    simp [storeProposal, dictInsert, hck, lookupKey, hne]

/-- Witness for C9: storing at a fresh second appends without overwriting. -/
theorem C9_fresh_timestamp_no_overwrite_witness :
    (storeProposal [("change_4", ⟨"a", [], [], 4⟩)] 9 ⟨"b", [], [], 9⟩).2
      = [("change_4", ⟨"a", [], [], 4⟩), ("change_" ++ toString 9, ⟨"b", [], [], 9⟩)] :=
  (C9_fresh_timestamp_no_overwrite [("change_4", ⟨"a", [], [], 4⟩)] 9
    ⟨"b", [], [], 9⟩ (by decide)).1


/-- `updCtx` rewrites values in place and never changes the key set. -/
theorem containsPath_updCtx (d : List (List String × CtxRec)) (p : List String)
    (ct : List Char) (q : List String) :
    containsPath (updCtx d p ct) q = containsPath d q := by
  induction d with
  | nil => rfl
  | cons e rest ih =>
      simp only [containsPath, updCtx, List.map_cons, List.any_cons] at ih ⊢
      by_cases he : e.1 = p
      · simp only [he, if_true, ih]
      · simp only [he, if_false, ih]

/-- Deleting a key makes its lookup fail. -/
theorem lookupKey_eraseKey {α : Type} (d : List (String × α)) (k : String) :
    lookupKey (eraseKey d k) k = none := by
  induction d with
  | nil => rfl
  | cons e rest ih =>
      simp only [eraseKey, lookupKey, List.filter_cons] at ih ⊢
      by_cases he : e.1 = k
      · simp [he, ih]
      · simp [he, ih]

/-- Characterization of the modify loop of `approve_changes` when every
target path has a context record: modified files are exactly the successful
writes, error strings exactly the failed ones (in order), and the pending
store and the context key set are untouched. -/
theorem applyMods_spec (env : ApplyEnv) :
    ∀ (mods : List ModEntry) (st : Session),
      (∀ m ∈ mods, containsPath st.context m.path = true) →
      (applyMods env mods st).2.1
          = (mods.filter (fun m => env.writeOk m.path)).map (·.path)
      ∧ (applyMods env mods st).2.2
          = (mods.filter (fun m => ¬ env.writeOk m.path)).map
              (fun m => "Error modifying " ++ pathStr m.path)
      ∧ (applyMods env mods st).1.pending = st.pending
      ∧ ∀ p, containsPath (applyMods env mods st).1.context p
          = containsPath st.context p := by
  intro mods
  induction mods with
  | nil => intro st _; exact ⟨rfl, rfl, rfl, fun p => rfl⟩
  | cons m rest ih =>
      rintro ⟨pd, cx, af, dk⟩ hctx
      have hcm : containsPath cx m.path = true := hctx m (List.mem_cons_self m rest)
      by_cases hw : env.writeOk m.path
      · have ihr := ih ⟨pd, updCtx cx m.path m.newContent, af,
          pathInsert dk m.path m.newContent⟩
          (fun m' hm' => by
            show containsPath (updCtx cx m.path m.newContent) m'.path = true
            rw [containsPath_updCtx]
            exact hctx m' (List.mem_cons_of_mem m hm'))
        simp only [applyMods, hw, if_true, hcm] at ihr ⊢
        refine ⟨by simp [hw, ihr.1], by simp [hw, ihr.2.1], ihr.2.2.1, fun p => ?_⟩
        rw [ihr.2.2.2 p]
        exact containsPath_updCtx cx m.path m.newContent p
      · have ihr := ih ⟨pd, cx, af, dk⟩
          (fun m' hm' => hctx m' (List.mem_cons_of_mem m hm'))
        simp only [applyMods, hw, if_false] at ihr ⊢
        exact ⟨by simp [hw, ihr.1], by simp [hw, ihr.2.1], ihr.2.2.1, ihr.2.2.2⟩

/-- Characterization of the create loop of `approve_changes` when every
parent-directory creation succeeds: no abort, created files are exactly the
successful writes, error strings exactly the failed ones, pending
untouched. -/
theorem applyCreates_spec (env : ApplyEnv) :
    ∀ (crs : List CreateEntry) (st : Session),
      (∀ c ∈ crs, env.mkdirsOk c.path.dropLast = true) →
      (applyCreates env crs st).2.2.2 = none
      ∧ (applyCreates env crs st).2.1
          = (crs.filter (fun c => env.writeOk c.path)).map (·.path)
      ∧ (applyCreates env crs st).2.2.1
          = (crs.filter (fun c => ¬ env.writeOk c.path)).map
              (fun c => "Error creating " ++ pathStr c.path)
      ∧ (applyCreates env crs st).1.pending = st.pending := by
  intro crs
  induction crs with
  | nil => intro st _; exact ⟨rfl, rfl, rfl, rfl⟩
  | cons c rest ih =>
      rintro ⟨pd, cx, af, dk⟩ hmk
      have hc : env.mkdirsOk c.path.dropLast = true := hmk c (List.mem_cons_self c rest)
      by_cases hw : env.writeOk c.path
      · have ihr := ih ⟨pd, pathInsert cx c.path (mkCreatedCtx c.path c.content), 
          pathInsert af c.path (mkCreatedFileRec c.path c.content),
          pathInsert dk c.path c.content⟩
          (fun c' hc' => hmk c' (List.mem_cons_of_mem c hc'))
        simp only [applyCreates, hc, if_true, hw] at ihr ⊢
        exact ⟨ihr.1, by simp [hw, ihr.2.1], by simp [hw, ihr.2.2.1], ihr.2.2.2⟩
      · have ihr := ih ⟨pd, cx, af, dk⟩
          (fun c' hc' => hmk c' (List.mem_cons_of_mem c hc'))
        simp only [applyCreates, hc, if_true, hw, if_false] at ihr ⊢
        exact ⟨ihr.1, by simp [hw, ihr.2.1], by simp [hw, ihr.2.2.1], ihr.2.2.2⟩

/-- Claim C3 (amended): on a stored proposal whose backup succeeds and all
of whose create-entries' parent-directory creations succeed, each per-file
write failure is collected as one error string without stopping the other
files; with zero errors the proposal is deleted and the result reports
success and the backup location, otherwise the proposal is retained and
the errors are reported.  (A `makedirs` failure instead aborts mid-way:
see the counterexample.) -/
theorem C3_approve_perfile_errors (env : ApplyEnv) (st : Session) (id : String)
    (ch : Proposal)
    (hid : lookupKey st.pending id = some ch)
    (hbk : env.backupOk = true)
    (hmk : ∀ c ∈ ch.filesToCreate, env.mkdirsOk c.path.dropLast = true)
    (hctx : ∀ m ∈ ch.filesToModify, containsPath st.context m.path = true) :
    ∃ o, (approve_changes env st id).2 = .done o
      ∧ o.modified_files
          = (ch.filesToModify.filter (fun m => env.writeOk m.path)).map (·.path)
      ∧ o.created_files
          = (ch.filesToCreate.filter (fun c => env.writeOk c.path)).map (·.path)
      ∧ o.errors
          = (ch.filesToModify.filter (fun m => ¬ env.writeOk m.path)).map
              (fun m => "Error modifying " ++ pathStr m.path)
            ++ (ch.filesToCreate.filter (fun c => ¬ env.writeOk c.path)).map
              (fun c => "Error creating " ++ pathStr c.path)
      ∧ (o.errors = [] →
          o.success = true ∧ o.backup_dir = some env.backupDir
          ∧ lookupKey (approve_changes env st id).1.pending id = none)
      ∧ (o.errors ≠ [] →
          o.success = false
          ∧ lookupKey (approve_changes env st id).1.pending id = some ch) := by
  obtain ⟨hm1, hm2, hm3, _hm4⟩ := applyMods_spec env ch.filesToModify st hctx
  obtain ⟨hc1, hc2, hc3, hc4⟩ :=
    applyCreates_spec env ch.filesToCreate (applyMods env ch.filesToModify st).1 hmk
  simp only [approve_changes, hid, hbk, if_true, hc1]
  set errs := (applyMods env ch.filesToModify st).2.2
    ++ (applyCreates env ch.filesToCreate (applyMods env ch.filesToModify st).1).2.2.1
    with herrs
  have herrs2 : errs
      = (ch.filesToModify.filter (fun m => ¬ env.writeOk m.path)).map
          (fun m => "Error modifying " ++ pathStr m.path)
        ++ (ch.filesToCreate.filter (fun c => ¬ env.writeOk c.path)).map
          (fun c => "Error creating " ++ pathStr c.path) := by
    rw [herrs, hm2, hc3]
  by_cases he : errs = []
  · simp only [if_pos he]
    refine ⟨_, rfl, by simpa using hm1, by simpa using hc2, ?_, ?_, ?_⟩
    · show ([] : List String) = _
      rw [← herrs2]
      exact he.symm
    · intro _
      refine ⟨rfl, rfl, ?_⟩
      show lookupKey (eraseKey _ id) id = none
      exact lookupKey_eraseKey _ id
    · intro hne
      exact absurd rfl hne
  · simp only [if_neg he]
    refine ⟨_, rfl, by simpa using hm1, by simpa using hc2, ?_, ?_, ?_⟩
    · exact herrs2
    · intro h0
      exact absurd h0 he
    · intro _
      refine ⟨rfl, ?_⟩
      show lookupKey
        (applyCreates env ch.filesToCreate (applyMods env ch.filesToModify st).1).1.pending
        id = some ch
      rw [hc4, hm3]
      exact hid

/-- Counterexample to claim C3 as stated: the parent-directory creation
(`os.makedirs`) for a create-entry sits outside the per-file `try`, so its
failure is not collected as a per-file error string and does stop
processing: with two create-entries whose first needs an uncreatable
parent, the approval aborts, the second file is never written, and the
proposal is retained even though the backup succeeded and zero per-file
error strings were collected. -/
theorem C3_mkdirs_abort_cex :
    (approve_changes ⟨true, "bk", fun _ => true, fun p => ¬ p = ["sub"]⟩
        ⟨[("change_1", ⟨"d", [], [⟨["sub", "new.py"], "x".data⟩,
            ⟨["ok.py"], "y".data⟩], 1⟩)], [], [], []⟩ "change_1").2
      = .aborted "Error applying changes for sub/new.py"
    ∧ lookupKey (approve_changes ⟨true, "bk", fun _ => true, fun p => ¬ p = ["sub"]⟩
        ⟨[("change_1", ⟨"d", [], [⟨["sub", "new.py"], "x".data⟩,
            ⟨["ok.py"], "y".data⟩], 1⟩)], [], [], []⟩ "change_1").1.pending "change_1"
      = some ⟨"d", [], [⟨["sub", "new.py"], "x".data⟩, ⟨["ok.py"], "y".data⟩], 1⟩
    ∧ containsPath (approve_changes ⟨true, "bk", fun _ => true, fun p => ¬ p = ["sub"]⟩
        ⟨[("change_1", ⟨"d", [], [⟨["sub", "new.py"], "x".data⟩,
            ⟨["ok.py"], "y".data⟩], 1⟩)], [], [], []⟩ "change_1").1.disk ["ok.py"]
      = false := by
  refine ⟨by decide, by decide, by decide⟩

/-- Witness for C3: one failing and one succeeding modify-write. -/
theorem C3_approve_perfile_errors_witness :
    ∃ o, (approve_changes ⟨true, "bk", fun p => ¬ p = ["bad.py"], fun _ => true⟩
        ⟨[("change_1", ⟨"d", [⟨["bad.py"], "x".data⟩, ⟨["good.py"], "y".data⟩], [], 1⟩)],
         [(["bad.py"], ⟨"q".data, "py", 1, 1, 0⟩), (["good.py"], ⟨"q".data, "py", 1, 1, 0⟩)],
         [], []⟩ "change_1").2 = .done o
      ∧ o.modified_files
          = (([⟨["bad.py"], "x".data⟩, ⟨["good.py"], "y".data⟩] : List ModEntry).filter
              (fun m => (⟨true, "bk", fun p => ¬ p = ["bad.py"], fun _ => true⟩ : ApplyEnv).writeOk m.path)).map (·.path)
      ∧ o.created_files
          = (([] : List CreateEntry).filter
              (fun c => (⟨true, "bk", fun p => ¬ p = ["bad.py"], fun _ => true⟩ : ApplyEnv).writeOk c.path)).map (·.path)
      ∧ o.errors
          = (([⟨["bad.py"], "x".data⟩, ⟨["good.py"], "y".data⟩] : List ModEntry).filter
              (fun m => ¬ (⟨true, "bk", fun p => ¬ p = ["bad.py"], fun _ => true⟩ : ApplyEnv).writeOk m.path)).map
              (fun m => "Error modifying " ++ pathStr m.path)
            ++ (([] : List CreateEntry).filter
              (fun c => ¬ (⟨true, "bk", fun p => ¬ p = ["bad.py"], fun _ => true⟩ : ApplyEnv).writeOk c.path)).map
              (fun c => "Error creating " ++ pathStr c.path)
      ∧ (o.errors = [] →
          o.success = true ∧ o.backup_dir = some "bk"
          ∧ lookupKey (approve_changes ⟨true, "bk", fun p => ¬ p = ["bad.py"], fun _ => true⟩
              ⟨[("change_1", ⟨"d", [⟨["bad.py"], "x".data⟩, ⟨["good.py"], "y".data⟩], [], 1⟩)],
               [(["bad.py"], ⟨"q".data, "py", 1, 1, 0⟩), (["good.py"], ⟨"q".data, "py", 1, 1, 0⟩)],
               [], []⟩ "change_1").1.pending "change_1" = none)
      ∧ (o.errors ≠ [] →
          o.success = false
          ∧ lookupKey (approve_changes ⟨true, "bk", fun p => ¬ p = ["bad.py"], fun _ => true⟩
              ⟨[("change_1", ⟨"d", [⟨["bad.py"], "x".data⟩, ⟨["good.py"], "y".data⟩], [], 1⟩)],
               [(["bad.py"], ⟨"q".data, "py", 1, 1, 0⟩), (["good.py"], ⟨"q".data, "py", 1, 1, 0⟩)],
               [], []⟩ "change_1").1.pending "change_1"
            = some ⟨"d", [⟨["bad.py"], "x".data⟩, ⟨["good.py"], "y".data⟩], [], 1⟩) :=
  C3_approve_perfile_errors _ _ "change_1"
    ⟨"d", [⟨["bad.py"], "x".data⟩, ⟨["good.py"], "y".data⟩], [], 1⟩
    (by decide) rfl (by decide) (by decide)

/-- A `HasFile` path is never empty. -/
theorem HasFile_path_ne_nil {t : FS} {p : List String} {sz : Nat} {ct : List Char}
    (h : FS.HasFile t p sz ct) : p ≠ [] := by
  cases h <;> simp

/-- Depth pruning is monotone in the depth. -/
theorem depthPrune_mono {maxD : Option Nat} {d d' : Nat}
    (h : depthPrune maxD d = true) (hdd : d ≤ d') : depthPrune maxD d' = true := by
  cases maxD with
  | none => simp [depthPrune] at h
  | some m => simp [depthPrune] at h ⊢; omega

/-- Membership in the subdirectory traversal: some child directory that
survived the ignore-filter contributes the record, prefixed by its name. -/
theorem mem_walkSubdirs (ig : List String) (maxD : Option Nat) :
    ∀ (es : List (String × FS)) (d : Nat) (r : RawFile),
      r ∈ walkSubdirs ig maxD es d ↔
        ∃ e ∈ es, e.2.isDirNode = true ∧ ig.contains e.1 = false
          ∧ ∃ r', r' ∈ walkScan ig maxD e.2 d ∧ r = prefixRaw e.1 r' := by
  intro es
  induction es with
  | nil => intro d r; simp [walkSubdirs]
  | cons e rest ih =>
      intro d r
      match e with
      | (n, c) =>
        rw [walkSubdirs]
        rw [List.mem_append]
        constructor
        · rintro (hin | hin)
          · by_cases hcond : c.isDirNode && !(ig.contains n)
            · rw [if_pos hcond, List.mem_map] at hin
              obtain ⟨r', hr', rfl⟩ := hin
              obtain ⟨h1, h2⟩ := Bool.and_eq_true_iff.mp hcond
              exact ⟨(n, c), List.mem_cons_self _ _, h1,
                by simpa using h2, r', hr', rfl⟩
            · rw [if_neg hcond] at hin
              simp at hin
          · obtain ⟨e', he', h1, h2, r', hr', hre⟩ := (ih d r).mp hin
            exact ⟨e', List.mem_cons_of_mem _ he', h1, h2, r', hr', hre⟩
        · rintro ⟨e', he', h1, h2, r', hr', rfl⟩
          rcases List.mem_cons.mp he' with rfl | he'
          · left
            have h1' : c.isDirNode = true := by simpa using h1
            have h2' : ig.contains n = false := by simpa using h2
            rw [if_pos (by simp [h1']; simpa using h2')]
            rw [List.mem_map]
            exact ⟨r', hr', rfl⟩
          · right
            exact (ih d _).mpr ⟨e', he', h1, h2, r', hr', rfl⟩

/-- The traversal of `scan_codebase` enumerates exactly the files of the
tree whose ancestor directory names avoid the ignore list and whose
directory depth survives the `max_depth` rule. -/
theorem mem_walkScan (ig : List String) (maxD : Option Nat) (t : FS) :
    ∀ (d : Nat) (r : RawFile),
      r ∈ walkScan ig maxD t d ↔
        FS.HasFile t r.path r.size r.content
        ∧ (∀ n ∈ r.path.dropLast, n ∉ ig)
        ∧ depthPrune maxD (d + (r.path.length - 1)) = false := by
  induction t using FS.inductionOn with
  | hfile sz ct =>
      intro d r
      simp only [walkScan, List.not_mem_nil, false_iff]
      rintro ⟨hf, _, _⟩
      cases hf
  | hdir es ih =>
      rintro d ⟨p, rsz, rct⟩
      by_cases hprune : depthPrune maxD d = true
      · simp only [walkScan, hprune, if_true, List.not_mem_nil, false_iff]
        rintro ⟨hf, _, hdep⟩
        have hne : p ≠ [] := HasFile_path_ne_nil hf
        have hmono : depthPrune maxD (d + (p.length - 1)) = true :=
          depthPrune_mono hprune (by omega)
        rw [hmono] at hdep
        exact absurd hdep (by simp)
      · rw [walkScan, if_neg hprune]
        rw [List.mem_append, List.mem_filterMap, mem_walkSubdirs]
        constructor
        · rintro (⟨e, he, hfe⟩ | ⟨e, he, hdir, hig, r', hr', heq⟩)
          · match e, hfe with
            | (n, FS.file sz2 ct2), hfe =>
                simp only [Option.some.injEq, RawFile.mk.injEq] at hfe
                obtain ⟨hp, hsz, hct⟩ := hfe
                subst hp; subst hsz; subst hct
                refine ⟨FS.HasFile.here he, by simp, by simpa using hprune⟩
          · obtain ⟨p', rsz', rct'⟩ := r'
            simp only [prefixRaw, RawFile.mk.injEq] at heq
            obtain ⟨hp, hsz, hct⟩ := heq
            subst hp; subst hsz; subst hct
            obtain ⟨hf', hig', hdep'⟩ := (ih e.1 e.2 he (d + 1) ⟨p', rsz, rct⟩).mp hr'
            simp only at hf' hig' hdep'
            have hne : p' ≠ [] := HasFile_path_ne_nil hf'
            refine ⟨?_, ?_, ?_⟩
            · exact FS.HasFile.there (by simpa using he) hf'
            · simp only
              rw [List.dropLast_cons_of_ne_nil hne]
              intro n hn
              rcases List.mem_cons.mp hn with rfl | hn
              · simpa using hig
              · exact hig' n hn
            · simp only [List.length_cons]
              have hlen : p'.length ≥ 1 := by
                cases hp2 : p' with
                | nil => exact absurd hp2 hne
                | cons a l => simp
              have harith : d + (p'.length + 1 - 1) = (d + 1) + (p'.length - 1) := by
                omega
              rw [harith]
              exact hdep'
        · rintro ⟨hf, hig, hdep⟩
          simp only at hf hig hdep
          cases hf with
          | here hmem =>
              left
              exact ⟨_, hmem, by simp⟩
          | there hmem hrest =>
              right
              rename_i n c rest
              have hne : rest ≠ [] := HasFile_path_ne_nil hrest
              have hdirc : c.isDirNode = true := by
                cases c with
                | file sz2 ct2 => cases hrest
                | dir es2 => rfl
              have hig1 : n ∉ ig := by
                have hh := hig n
                rw [List.dropLast_cons_of_ne_nil hne] at hh
                exact hh (List.mem_cons_self _ _)
              have hig2 : ∀ m ∈ rest.dropLast, m ∉ ig := by
                intro m hm
                have hh := hig m
                rw [List.dropLast_cons_of_ne_nil hne] at hh
                exact hh (List.mem_cons_of_mem _ hm)
              have hlen : rest.length ≥ 1 := by
                cases hp2 : rest with
                | nil => exact absurd hp2 hne
                | cons a l => simp
              have hdep2 : depthPrune maxD ((d + 1) + (rest.length - 1)) = false := by
                have harith : (d + 1) + (rest.length - 1)
                    = d + ((n :: rest).length - 1) := by
                  simp only [List.length_cons]
                  omega
                rw [harith]
                exact hdep
              refine ⟨(n, c), hmem, hdirc, by simpa using hig1,
                ⟨rest, rsz, rct⟩, ?_, by simp [prefixRaw]⟩
              exact (ih n c hmem (d + 1) ⟨rest, rsz, rct⟩).mpr
                ⟨hrest, hig2, hdep2⟩

/-- Claim C2: the set of FileRecord paths produced by
`scan(root, ignoreDirs, maxDepth)` equals exactly the set of file paths
under the root that are not inside any ignored directory and not excluded
by the `maxDepth` pruning rule (directory separator-count at most
`maxDepth`). -/
theorem C2_scan_completeness (ig : List String) (maxD : Option Nat) (t : FS) :
    ∀ p : List String,
      p ∈ (scanFileRecs ig maxD t).map (·.1) ↔
        (∃ sz ct, FS.HasFile t p sz ct)
        ∧ (∀ n ∈ p.dropLast, n ∉ ig)
        ∧ depthPrune maxD (p.length - 1) = false := by
  intro p
  constructor
  · intro hp
    simp only [scanFileRecs, List.map_map, List.mem_map, Function.comp] at hp
    obtain ⟨r, hr, rfl⟩ := hp
    obtain ⟨hf, hig, hdep⟩ := (mem_walkScan ig maxD t 0 r).mp hr
    exact ⟨⟨r.size, r.content, hf⟩, hig, by simpa using hdep⟩
  · rintro ⟨⟨sz, ct, hf⟩, hig, hdep⟩
    have hr : (⟨p, sz, ct⟩ : RawFile) ∈ walkScan ig maxD t 0 :=
      (mem_walkScan ig maxD t 0 ⟨p, sz, ct⟩).mpr ⟨hf, hig, by simpa using hdep⟩
    simp only [scanFileRecs, List.map_map, List.mem_map, Function.comp]
    exact ⟨⟨p, sz, ct⟩, hr, rfl⟩

/-- `Char.ofNat` of a valid scalar value round-trips through `toNat`. -/
theorem char_toNat_ofNat_valid {n : Nat} (h : n.isValidChar) :
    (Char.ofNat n).toNat = n := by
  rw [Char.ofNat, dif_pos h]
  rfl

/-- `str.lower` is idempotent per character. -/
theorem toLower_idem (c : Char) : c.toLower.toLower = c.toLower := by
  simp only [Char.toLower]
  by_cases h : c.toNat ≥ 65 ∧ c.toNat ≤ 90
  · simp only [if_pos h]
    have hval : (c.toNat + 32).isValidChar := by
      rw [Nat.isValidChar]
      left
      omega
    have hv : (Char.ofNat (c.toNat + 32)).toNat = c.toNat + 32 :=
      char_toNat_ofNat_valid hval
    rw [if_neg]
    rw [hv]
    omega
  · simp only [if_neg h]

/-- `str.lower` is idempotent. -/
theorem lowerChars_idem (cs : List Char) : lowerChars (lowerChars cs) = lowerChars cs := by
  simp only [lowerChars, List.map_map]
  exact List.map_congr_left (fun c _ => toLower_idem c)

/-- A non-empty `splitext` extension starts with a dot and is a suffix of
the basename. -/
theorem splitextGo_shape : ∀ (cs : List Char) (b : Bool),
    splitextGo cs b = [] ∨ ∃ t, splitextGo cs b = '.' :: t ∧ ('.' :: t) <:+ cs := by
  intro cs
  induction cs with
  | nil => intro b; left; rfl
  | cons c rest ih =>
      intro b
      by_cases hc : c = '.'
      · rw [splitextGo, if_pos hc]
        rcases ih b with hres | ⟨t, hres, hsuf⟩
        · simp only [hres]
          by_cases hb : b
          · right
            subst hc
            exact ⟨rest, by simp [hb], List.suffix_refl _⟩
          · left
            simp [hb]
        · right
          refine ⟨t, ?_, hsuf.trans (List.suffix_cons c rest)⟩
          simp only [hres]
          simp
      · rw [splitextGo, if_neg hc]
        rcases ih true with hres | ⟨t, hres, hsuf⟩
        · left; exact hres
        · right; exact ⟨t, hres, hsuf.trans (List.suffix_cons c rest)⟩

/-- The basename is a suffix of the joined path string. -/
theorem basename_suffix : ∀ (p : List String), p ≠ [] →
    (basenameOf p).data <:+ pathChars p := by
  intro p
  induction p with
  | nil => intro h; exact absurd rfl h
  | cons n rest ih =>
      intro _
      cases rest with
      | nil => exact List.suffix_refl _
      | cons m rest2 =>
          have hsuf := ih (by simp)
          have hbn : basenameOf (n :: m :: rest2) = basenameOf (m :: rest2) := by
            simp [basenameOf, List.getLastD_cons]
          rw [hbn, pathChars]
          exact hsuf.trans ((List.suffix_cons '/' _).trans (List.suffix_append n.data _))

/-- When at most `limit` entries match, the `find_files` loop returns every
matching path (the `break` never truncates). -/
theorem findFilesGo_eq (ok : (List String × FileRec) → Bool) (limit : Nat) :
    ∀ (l : List (List String × FileRec)) (n : Nat),
      (l.filter ok).length + n ≤ limit →
      findFilesGo ok limit l n = ((l.filter ok).map (·.1)) := by
  intro l
  induction l with
  | nil => intro n _; rfl
  | cons f rest ih =>
      intro n hlim
      by_cases hok : ok f
      · rw [List.filter_cons_of_pos hok] at hlim ⊢
        simp only [List.length_cons] at hlim
        rw [findFilesGo, if_pos hok]
        by_cases hstop : n + 1 ≥ limit
        · have hrest : (rest.filter ok).length = 0 := by omega
          rw [List.length_eq_zero] at hrest
          simp [hstop, hrest]
        · rw [if_neg hstop, ih (n + 1) (by omega)]
          simp
      · rw [List.filter_cons_of_neg hok] at hlim ⊢
        rw [findFilesGo, if_neg hok]
        by_cases h0 : n ≥ limit
        · have : (rest.filter ok).length = 0 := by omega
          rw [List.length_eq_zero] at this
          simp [h0, this]
        · rw [if_neg h0]
          exact ih n hlim

/-- `List.asString` leaves the characters unchanged. -/
theorem data_asString (l : List Char) : (List.asString l).data = l := rfl

/-- Claim C7 (amended): `findByExtension(ext)` returns exactly the
FileRecords whose stored extension case-insensitively equals `ext` after
stripping one leading dot; and — provided `ext` has no leading dot and at
most `limit` catalog files pass the `findFiles` extension filter — every
returned path also appears in a subsequent `findFiles(extension=ext)`
result. -/
theorem C7_find_by_extension_roundtrip (ig : List String) (maxD : Option Nat)
    (t : FS) (ext : String) (limit : Nat) :
    (∀ p, p ∈ find_all_files_by_extension (scanFileRecs ig maxD t) ext ↔
      ∃ fr, (p, fr) ∈ scanFileRecs ig maxD t
        ∧ lowerStr fr.extension = lowerStr (stripOneDot ext))
    ∧ (startsWithDot ext = false →
       ((scanFileRecs ig maxD t).filter (findFilesPass (some ext))).length ≤ limit →
       ∀ p, p ∈ find_all_files_by_extension (scanFileRecs ig maxD t) ext →
         p ∈ find_files (scanFileRecs ig maxD t) (some ext) limit) := by
  have hexact : ∀ p, p ∈ find_all_files_by_extension (scanFileRecs ig maxD t) ext ↔
      ∃ fr, (p, fr) ∈ scanFileRecs ig maxD t
        ∧ lowerStr fr.extension = lowerStr (stripOneDot ext) := by
    intro p
    constructor
    · intro hp
      simp only [find_all_files_by_extension, List.mem_map] at hp
      obtain ⟨pf, hpf, rfl⟩ := hp
      have hm := List.mem_filter.mp hpf
      exact ⟨pf.2, by simpa using hm.1, by simpa using hm.2⟩
    · rintro ⟨fr, hmem, hext⟩
      simp only [find_all_files_by_extension, List.mem_map]
      exact ⟨(p, fr), List.mem_filter.mpr ⟨hmem, by simpa using hext⟩, rfl⟩
  refine ⟨hexact, ?_⟩
  intro hdot hlim p hp
  have hstrip : stripOneDot ext = ext := by
    rw [stripOneDot, hdot]
    simp
  obtain ⟨fr, hmem, hext⟩ := (hexact p).mp hp
  rw [hstrip] at hext
  rw [find_files, findFilesGo_eq _ _ _ 0 (by simpa using hlim)]
  have hpass : findFilesPass (some ext) (p, fr) = true := by
    by_cases hemp : ext = ""
    · simp [findFilesPass, hemp]
    · simp only [findFilesPass, if_neg hemp]
      simp only [scanFileRecs, List.mem_map] at hmem
      obtain ⟨f, hf, heq⟩ := hmem
      have hp1 : p = f.path := by
        have := congrArg Prod.fst heq
        simpa using this.symm
      have hfr : fr = mkFileRec f := by
        have := congrArg Prod.snd heq
        simpa using this.symm
      have hpne : f.path ≠ [] := by
        obtain ⟨hhf, _, _⟩ := (mem_walkScan ig maxD t 0 f).mp hf
        exact HasFile_path_ne_nil hhf
      by_cases hfe : fileExtLower f = []
      · exfalso
        rw [hfr] at hext
        rw [mkFileRec] at hext
        simp only [hfe, if_true] at hext
        have hd : lowerChars ext.data = [] := by
          have := congrArg String.data hext
          simpa [lowerStr, lowerChars, data_asString] using this.symm
        have : ext.data = [] := by
          simpa [lowerChars] using hd
        exact hemp (by cases ext; simp_all)
      · have hpse : pySplitextExt (basenameOf f.path).data ≠ [] := by
          intro h0
          exact hfe (by simp [fileExtLower, h0, lowerChars])
        rcases splitextGo_shape (basenameOf f.path).data false with h0 | ⟨tl, hps, hsuf⟩
        · exact absurd h0 hpse
        · have hdot' : Char.toLower '.' = '.' := by decide
          have hfe2 : fileExtLower f = '.' :: lowerChars tl := by
            simp [fileExtLower, pySplitextExt] at hps ⊢
            rw [hps]
            simp [lowerChars, hdot']
          have hfrext : fr.extension.data = lowerChars tl := by
            rw [hfr, mkFileRec]
            simp only [hfe2]
            simp [lowerChars, data_asString]
          have hdata : lowerChars fr.extension.data = lowerChars ext.data := by
            have := congrArg String.data hext
            simpa [lowerStr, data_asString] using this
          have hlow : lowerChars tl = lowerChars ext.data := by
            rw [hfrext, lowerChars_idem] at hdata
            exact hdata
          have hchain : ('.' :: lowerChars ext.data) <:+ lowerChars (pathChars p) := by
            rw [← hlow]
            have h1 : ('.' :: tl) <:+ (basenameOf f.path).data := hsuf
            have h2 : lowerChars ('.' :: tl) <:+ lowerChars (basenameOf f.path).data :=
              h1.map Char.toLower
            have h3 : (basenameOf f.path).data <:+ pathChars f.path :=
              basename_suffix f.path hpne
            have h4 : lowerChars (basenameOf f.path).data <:+ lowerChars (pathChars f.path) :=
              h3.map Char.toLower
            have h5 : lowerChars ('.' :: tl) <:+ lowerChars (pathChars f.path) :=
              h2.trans h4
            rw [hp1]
            simpa [lowerChars, hdot'] using h5
          simpa using List.isSuffixOf_iff_suffix.mpr hchain
  rw [List.mem_map]
  exact ⟨(p, fr), List.mem_filter.mpr ⟨hmem, hpass⟩, rfl⟩

/-- Counterexample to claim C7 as stated: on a scanned catalog holding only
`Makefile` (empty extension), `findByExtension(".")` — the argument's
leading dot is stripped, so it matches the extension-less record — returns
`Makefile`, but a subsequent `findFiles(extension=".")` checks
`path.lower().endswith("..")` and returns nothing, so the round-trip
fails. -/
theorem C7_dotted_argument_cex :
    find_all_files_by_extension
        (scanFileRecs [] none (FS.dir [("Makefile", FS.file 10 "m".data)])) "."
      = [["Makefile"]]
    ∧ find_files (scanFileRecs [] none (FS.dir [("Makefile", FS.file 10 "m".data)]))
        (some ".") 100
      = [] := by
  refine ⟨by decide, by decide⟩

/-- Witness for C7 on a one-file Python catalog. -/
theorem C7_find_by_extension_roundtrip_witness :
    ["a.py"] ∈ find_files
      (scanFileRecs [] none (FS.dir [("a.py", FS.file 4 "x".data)]))
      (some "py") 100 :=
  (C7_find_by_extension_roundtrip [] none
      (FS.dir [("a.py", FS.file 4 "x".data)]) "py" 100).2
    (by decide) (by decide) ["a.py"] (by decide)
